import Mathlib

/-!
Shallow embedding of `rayopt/raytrace.py` (paraxial and full ray tracing
engines) together with theorems settling the specification claims.

Machine reals in the source are modelled by `ℚ` where the computation is
rational arithmetic, and by `ℝ` where the source uses `sqrt`/`sin`/`cos`/`π`
(the pupil samplers).  Python's `None` returns and raised errors are made
explicit in result types.
-/

namespace Rayopt

/-! ### 2×2 paraxial system matrices (`find_rays`)

`ParaxialTrace.find_rays` builds the paraxial system matrix `m` from the
object to the surface after the aperture stop, inverts it with
`np.linalg.inv` (which raises `LinAlgError` exactly when `m` is singular),
and fills row 0 of the `y`/`u` state arrays. -/

/-- A 2×2 matrix with entries `a = m[0,0]`, `b = m[0,1]`, `c = m[1,0]`,
`d = m[1,1]`. -/
structure Mat2 where
  a : ℚ
  b : ℚ
  c : ℚ
  d : ℚ
deriving DecidableEq

/-- Determinant of a 2×2 matrix. -/
def det2 (m : Mat2) : ℚ := m.a * m.d - m.b * m.c

/-- Inverse of a 2×2 matrix (the closed form computed by `np.linalg.inv`). -/
def inv2 (m : Mat2) : Mat2 :=
  ⟨m.d / det2 m, -m.b / det2 m, -m.c / det2 m, m.a / det2 m⟩

/-- The four values written by `find_rays` into row 0 of the state arrays:
`y[0,0]`, `u[0,0]` (marginal) and `y[0,1]`, `u[0,1]` (chief). -/
structure FindRaysRow where
  y0m : ℚ
  u0m : ℚ
  y0c : ℚ
  u0c : ℚ
deriving DecidableEq

/-- Embedding of `ParaxialTrace.find_rays` (raytrace.py lines 92–103).

Input `m` is the paraxial system matrix `system.paraxial_matrix(l, stop=ai+1)`,
`r` the stop radius, `c` the object radius, `finite` the object-conjugate
flag `system.object.finite`.  `none` models the `LinAlgError` raised by
`np.linalg.inv(m)` on a singular `m`; all later arithmetic is plain float
arithmetic and raises nothing (float division by a zero matrix entry yields
non-finite values and only a warning in numpy).

The source swaps the local aliases `y, u = u, y` when the object is
*finite*, so the closed-form values land in `u`-row slots for a finite
object and in `y`-row slots for an infinite one.  (The reversed matrix
`mi[::-1]` assigned to the local `m` in the same statement is dead: every
formula below it reads `mi`.) -/
def find_rays (m : Mat2) (r c : ℚ) (finite : Bool) : Option FindRaysRow :=
  if det2 m = 0 then none
  else
    let mi := inv2 m
    let hm := r * mi.a - r * mi.b * mi.c / mi.d
    let hc := c * mi.b / mi.d
    if finite then some ⟨0, hm, c, hc⟩ else some ⟨hm, 0, hc, c⟩

/-! ### Paraxial propagation (`ParaxialTrace.propagate`)

`ParaxialTrace.propagate` threads the joint marginal/chief ray state
`(y, u)` and the refractive index from surface to surface by calling each
surface's `propagate_paraxial`.  That per-surface method lives in
`rayopt/elements.py`, which is not part of the supplied sources; it is
modelled here from the spec. -/

/-- A refracting surface as the paraxial engine sees it: the thickness of
the gap preceding it, its curvature, and the refractive index of the
medium following it. -/
structure PSurf where
  thickness : ℚ
  curvature : ℚ
  index : ℚ
deriving DecidableEq

/-- Joint marginal/chief paraxial ray state at one surface: heights `ym`,
`yc`, slopes `um`, `uc`, and the refractive index `n` of the medium the
rays are travelling in after the surface. -/
structure PState where
  ym : ℚ
  um : ℚ
  yc : ℚ
  uc : ℚ
  n : ℚ
deriving DecidableEq

/-- Modelled from the spec: `Surface.propagate_paraxial` (rayopt/elements.py,
absent from the sources).  The spec describes a homogeneous propagation
pass as a free-space transfer through the preceding gap followed by
refraction obeying the paraxial refraction invariant
`n0·u0 − n1·u1 = y·curvature·(n1 − n0)` (spec §4.1 step (b) and §4.2),
applied jointly to the marginal and chief rays. -/
def propagate_paraxial (s : PSurf) (st : PState) : PState :=
  let ym := st.ym + s.thickness * st.um
  let yc := st.yc + s.thickness * st.uc
  let um := (st.n * st.um - ym * s.curvature * (s.index - st.n)) / s.index
  let uc := (st.n * st.uc - yc * s.curvature * (s.index - st.n)) / s.index
  ⟨ym, um, yc, uc, s.index⟩

/-- The per-surface states recorded by `ParaxialTrace.propagate`: the
object-space row 0 followed by the state after each successive surface. -/
def paraxStates (st : PState) : List PSurf → List PState
  | [] => [st]
  | s :: rest => st :: paraxStates (propagate_paraxial s st) rest

/-- Embedding of the `lagrange` property (raytrace.py lines 204–206):
`n·(u_m·y_c − u_c·y_m)` of a row of the state arrays. -/
def lagrange (st : PState) : ℚ := st.n * (st.um * st.yc - st.uc * st.ym)

/-! ### The `stop` argument of `ParaxialTrace.propagate` (C9)

The loop bound is `range(start, stop or self.length)`: Python's `or`
replaces a falsy `stop` (both `None` and `0`) by `self.length`. -/

/-- Embedding of the Python expression `stop or self.length` where `stop`
is `None` or an integer: falsy values (`None`, `0`) give `length`. -/
def pyOrStop (stop : Option ℕ) (length : ℕ) : ℕ :=
  match stop with
  | none => length
  | some s => if s = 0 then length else s

/-- The surface indices visited by `ParaxialTrace.propagate(start, stop)`:
`range(start, stop or self.length)`. -/
def visitedIndices (length start : ℕ) (stop : Option ℕ) : List ℕ :=
  List.range' start (pyOrStop stop length - start)

/-- `ParaxialTrace.propagate(start, stop)` restricted to the ray-state
thread: folds `propagate_paraxial` over the surfaces at the visited
indices. -/
def propagateSlice (sys : List PSurf) (st : PState) (start : ℕ)
    (stop : Option ℕ) : PState :=
  ((visitedIndices sys.length start stop).map
      (fun i => sys.getD i ⟨0, 0, 1⟩)).foldl
    (fun s e => propagate_paraxial e s) st

/-! ### Axial position accumulation (C8)

`ParaxialTrace.propagate` starts `z = 0` and adds `el.thickness` only when
`i > 0` before recording `self.z[i] = z`; `FullTrace.propagate` records
`self.z[i] = z = z + e.thickness` for every `i` including the first. -/

/-- Helper for `FullTrace.propagate`'s `z` accumulation: given a running
position `z` and the remaining surfaces' thicknesses, record `z + t` at
each surface. -/
def fullZAux (z : ℚ) : List ℚ → List ℚ
  | [] => []
  | t :: r => (z + t) :: fullZAux (z + t) r

/-- The `z` array written by `FullTrace.propagate` (raytrace.py line 273):
`z[i] = z[i-1] + thickness[i]` starting from `0`, with the first surface's
thickness included. -/
def fullZ (ts : List ℚ) : List ℚ := fullZAux 0 ts

/-- Helper for `ParaxialTrace.propagate`'s `z` accumulation: the `first`
flag records whether the loop is at index 0, where `z += el.thickness` is
skipped. -/
def paraxZAux (z : ℚ) (first : Bool) : List ℚ → List ℚ
  | [] => []
  | t :: r =>
    let z' := if first then z else z + t
    z' :: paraxZAux z' false r

/-- The `z` array written by `ParaxialTrace.propagate` (raytrace.py lines
82–86): `z[0] = 0` and thickness accumulation starts only at surface 1. -/
def paraxZ (ts : List ℚ) : List ℚ := paraxZAux 0 true ts

/-! ### The `magnification` property (C10) -/

/-- Python sequence indexing with negative-index wraparound: `l[i]` is
`l[len(l) + i]` for negative `i` (out-of-range reads modelled by the
default). -/
def pyGetD {α : Type} (l : List α) (i : ℤ) (dflt : α) : α :=
  if i < 0 then l.getD (l.length - (-i).toNat) dflt else l.getD i.toNat dflt

/-- Embedding of `ParaxialTrace.magnification` (raytrace.py lines 248–251):
`u` is the per-surface `(marginal, chief)` slope pair array, `nl` the
per-surface refractive index array.  Transverse magnification is
`(n[0]·u[0,0])/(n[-2]·u[-2,0])`; angular magnification is
`(n[-2]·u[-2,1])/(n[1]·u[0,1])`. -/
def magnification (nl : List ℚ) (u : List (ℚ × ℚ)) : ℚ × ℚ :=
  ((pyGetD nl 0 0 * (pyGetD u 0 (0, 0)).1) /
     (pyGetD nl (-2) 0 * (pyGetD u (-2) (0, 0)).1),
   (pyGetD nl (-2) 0 * (pyGetD u (-2) (0, 0)).2) /
     (pyGetD nl 1 0 * (pyGetD u 0 (0, 0)).2))

/-! ### Pupil sampling (`FullTrace.get_rays`, raytrace.py lines 469–503)

The source builds `2×N` coordinate arrays; they are modelled here as lists
of points `(x, y)` over `ℝ` (the source uses `sqrt`, `sin`, `cos`, `π`).
The `random` branch filters pregenerated uniform candidates, passed in
explicitly as `rand`. -/

/-- A pupil coordinate pair. -/
abbrev Pt : Type := ℝ × ℝ

/-- Embedding of `np.linspace(a, b, m)`: `m` evenly spaced samples from
`a` to `b` inclusive (`[a]` for `m = 1`, empty for `m = 0`). -/
noncomputable def linspace (a b : ℝ) (m : ℕ) : List ℝ :=
  (List.range m).map (fun (k : ℕ) => a + (b - a) * (k : ℝ) / ((m : ℝ) - 1))

/-- The `random` branch: keep the candidate points inside the unit disk. -/
noncomputable def randomDist (rand : List Pt) : List Pt :=
  rand.filter (fun p => p.1 ^ 2 + p.2 ^ 2 ≤ 1)

/-- The `meridional` branch: `n` points on the x-axis. -/
noncomputable def meridionalDist (n : ℕ) : List Pt :=
  (linspace (-1) 1 n).map (fun x => (x, 0))

/-- The `sagittal` branch: `n` points on the y-axis. -/
noncomputable def sagittalDist (n : ℕ) : List Pt :=
  (linspace (-1) 1 n).map (fun y => (0, y))

/-- Grid side used by the `square` and `triangular` branches:
`np.around(np.sqrt(n*4/pi))`. -/
noncomputable def gridSide (n : ℕ) : ℕ :=
  (round (Real.sqrt (n * 4 / Real.pi))).toNat

/-- The `square` branch: an `r×r` grid over `[-1,1]²` (row-major, `x`
outer) clipped to the unit disk. -/
noncomputable def squareDist (n : ℕ) : List Pt :=
  let lin := linspace (-1) 1 (gridSide n)
  (lin.flatMap (fun x => lin.map (fun y => (x, y)))).filter
    (fun p => p.1 ^ 2 + p.2 ^ 2 ≤ 1)

/-- The `triangular` branch: textually identical to the `square` branch in
the source. -/
noncomputable def triangularDist (n : ℕ) : List Pt :=
  let lin := linspace (-1) 1 (gridSide n)
  (lin.flatMap (fun x => lin.map (fun y => (x, y)))).filter
    (fun p => p.1 ^ 2 + p.2 ^ 2 ≤ 1)

/-- Ring count of the `hexapolar` branch:
`int(np.around(np.sqrt(n/3 - 1/12) - 1/2))`. -/
noncomputable def ringCount (n : ℕ) : ℕ :=
  (round (Real.sqrt ((n : ℝ) / 3 - 1 / 12) - 1 / 2)).toNat

/-- Ring `i` of the `hexapolar` branch: `np.arange(0, 2π, 2π/(6i))` angles,
points `(i·sin a / r, i·cos a / r)`. -/
noncomputable def hexRing (r i : ℕ) : List Pt :=
  (List.range (6 * i)).map
    (fun (k : ℕ) =>
      ((i : ℝ) * Real.sin ((k : ℝ) * (2 * Real.pi / (6 * (i : ℝ)))) / r,
       (i : ℝ) * Real.cos ((k : ℝ) * (2 * Real.pi / (6 * (i : ℝ)))) / r))

/-- The `hexapolar` branch: the centre point followed by rings `1..r`. -/
noncomputable def hexapolarDist (n : ℕ) : List Pt :=
  ((0, 0) : Pt) :: ((List.range (ringCount n)).map
    (fun j => hexRing (ringCount n) (j + 1))).flatten

/-- The `cross` branch: `n/2` x-axis points then `n/2` y-axis points
(Python 2 floor division). -/
noncomputable def crossDist (n : ℕ) : List Pt :=
  (linspace (-1) 1 (n / 2)).map (fun x => (x, 0)) ++
    (linspace (-1) 1 (n / 2)).map (fun y => (0, y))

/-- The `tee` branch: `2n/3` full-range x-axis points then `n/3` points on
the positive y-axis. -/
noncomputable def teeDist (n : ℕ) : List Pt :=
  (linspace (-1) 1 (2 * n / 3)).map (fun x => (x, 0)) ++
    (linspace 0 1 (n / 3)).map (fun y => (0, y))

/-- Result of `FullTrace.get_rays`: either a point list or Python's
implicit `return None` (the `if/elif` chain has no `else` branch and no
`raise` statement). -/
inductive GetRaysOut : Type
  | pts (l : List Pt)
  | pyNone

/-- Embedding of `FullTrace.get_rays(distribution, nrays)`.  `rand` stands
for the `np.random.rand` candidates consumed by the `random` branch. -/
noncomputable def get_rays (d : String) (n : ℕ) (rand : List Pt) : GetRaysOut :=
  if d = "random" then .pts (randomDist rand)
  else if d = "meridional" then .pts (meridionalDist n)
  else if d = "sagittal" then .pts (sagittalDist n)
  else if d = "square" then .pts (squareDist n)
  else if d = "triangular" then .pts (triangularDist n)
  else if d = "hexapolar" then .pts (hexapolarDist n)
  else if d = "cross" then .pts (crossDist n)
  else if d = "tee" then .pts (teeDist n)
  else .pyNone

/-! ### `Trace.print_coeffs` (raytrace.py lines 49–56, C7)

The generator yields one header line (`"%2s %1s" + "% 10s"*len(labels)`),
one line per row of `coeff` (`"%2s %1s" + "% 10.4g"*len(labels)`), and —
when `sum` is true — one trailing line with the column sums.  The C
`%.4g` conversion is reproduced for rationals below (ties in the
4-significant-digit rounding are taken upward). -/

/-- Strip trailing `'0'` characters (the `%g` trailing-zero removal). -/
def stripZeros (s : String) : String :=
  String.mk ((s.toList.reverse.dropWhile (fun ch => ch = '0')).reverse)

/-- Right-justify to width `w` with spaces: Python's `"%<w>s"`. -/
def rightJust (w : ℕ) (s : String) : String :=
  if s.length < w then String.mk (List.replicate (w - s.length) ' ') ++ s
  else s

/-- Floor of `log10` of a rational `q > 0`. -/
def qLog10 (q : ℚ) : ℤ :=
  if 1 ≤ q then (Nat.log 10 q.floor.toNat : ℤ)
  else -(Nat.clog 10 q⁻¹.ceil.toNat : ℤ)

/-- Round `q > 0` to 4 significant digits: a mantissa in `[1000, 9999]`
and a decimal exponent `e` with `q ≈ m·10^(e−3)`. -/
def sig4 (q : ℚ) : ℤ × ℤ :=
  let e := qLog10 q
  let m := round (q * (10 : ℚ) ^ (3 - e))
  if m = 10000 then (1000, e + 1) else (m, e)

/-- Fixed-point `%g` style for a 4-digit mantissa string `s` at exponent
`e ∈ [-4, 3]`, trailing zeros stripped. -/
def gFixed (s : String) (e : ℤ) : String :=
  if 0 ≤ e then
    let ip := s.take (e.toNat + 1)
    let fp := stripZeros (s.drop (e.toNat + 1))
    if fp = "" then ip else ip ++ "." ++ fp
  else
    "0." ++ String.mk (List.replicate (-e - 1).toNat '0') ++ stripZeros s

/-- Scientific `%g` style for a 4-digit mantissa string `s` at exponent
`e`: `d[.ddd]e±XX`. -/
def gSci (s : String) (e : ℤ) : String :=
  let fp := stripZeros (s.drop 1)
  let mant := if fp = "" then s.take 1 else s.take 1 ++ "." ++ fp
  let ea := (if e < 0 then -e else e).toNat
  let es := toString ea
  mant ++ "e" ++ (if e < 0 then "-" else "+") ++
    (if es.length < 2 then "0" ++ es else es)

/-- C `%.4g` for a rational: 4 significant digits, fixed style for decimal
exponents in `[-4, 3]`, scientific otherwise, trailing zeros stripped. -/
def fmtG4 (q : ℚ) : String :=
  if q = 0 then "0"
  else
    let sgn := if q < 0 then "-" else ""
    let me := sig4 |q|
    let s := toString me.1.toNat
    sgn ++ (if -4 ≤ me.2 ∧ me.2 < 4 then gFixed s me.2 else gSci s me.2)

/-- Python `"% 10.4g"`: the space flag prefixes nonnegative values, and
the conversion is right-justified to width 10. -/
def pyFmt10g (q : ℚ) : String :=
  rightJust 10 (if q < 0 then fmtG4 q else " " ++ fmtG4 q)

/-- One data row of `print_coeffs`: `"%2s %1s" + "% 10.4g"*len(labels)`
applied to `(i, system[i].typ) + tuple(a)`. -/
def dataRow (i : ℕ) (typ : String) (a : List ℚ) : String :=
  rightJust 2 (toString i) ++ " " ++ rightJust 1 typ ++
    String.join (a.map pyFmt10g)

/-- data rows of `print_coeffs`: `for i, a in enumerate(coeff)`, the
surface type read from the system's `typ` attributes. -/
def dataRows (typs : List String) (i : ℕ) : List (List ℚ) → List String
  | [] => []
  | a :: rest => dataRow i (typs.getD i "") a :: dataRows typs (i + 1) rest

/-- numpy `coeff.sum(0)`: column-wise sums of a 2D array. -/
def colSums : List (List ℚ) → List ℚ
  | [] => []
  | a :: rest => rest.foldl (fun acc row => List.zipWith (· + ·) acc row) a

/-- Embedding of `Trace.print_coeffs(coeff, labels, sum)`; `typs` holds
`self.system[i].typ` for each surface. -/
def print_coeffs (typs : List String) (coeff : List (List ℚ))
    (labels : List String) (sum : Bool) : List String :=
  (rightJust 2 "#" ++ " " ++ rightJust 1 "T" ++
      String.join (labels.map (rightJust 10))) ::
    dataRows typs 0 coeff ++
      (if sum then
        [rightJust 2 " ∑" ++ " " ++ rightJust 1 "" ++
          String.join ((colSums coeff).map pyFmt10g)]
      else [])

/-! ## Theorems -/

/-! ### C1 — `find_rays` row assignment and the finite/infinite swap -/

/-- C1 counterexample: at the invertible matrix `m = [[2,1],[1,2]]`, stop
radius 1, object radius 1 and a *finite* object, `find_rays` writes
`(y[0,0], u[0,0], y[0,1], u[0,1]) = (0, 1/2, 1, -1/2)` — the closed-form
height/slope values land in the `u` slots — and not the row
`(1/2, 0, -1/2, 1)` that the claim asserts for a finite object. -/
theorem find_rays_finite_swap_cex :
    find_rays ⟨2, 1, 1, 2⟩ 1 1 true = some ⟨0, 1/2, 1, -1/2⟩ ∧
    (⟨0, 1/2, 1, -1/2⟩ : FindRaysRow) ≠
      ⟨1 * (inv2 ⟨2, 1, 1, 2⟩).a -
         1 * (inv2 ⟨2, 1, 1, 2⟩).b * (inv2 ⟨2, 1, 1, 2⟩).c / (inv2 ⟨2, 1, 1, 2⟩).d,
       0, 1 * (inv2 ⟨2, 1, 1, 2⟩).b / (inv2 ⟨2, 1, 1, 2⟩).d, 1⟩ := by
  constructor
  · norm_num [find_rays, inv2, det2]
  · norm_num [inv2, det2, FindRaysRow.mk.injEq]

/-- C1 (amended): for every invertible system matrix `m`, stop radius `r`
and object radius `c`, `find_rays` puts the closed-form marginal value
`r·mi[0,0] − r·mi[0,1]·mi[1,0]/mi[1,1]` and chief value `c·mi[0,1]/mi[1,1]`
into the `y` row (with `u[0,0] = 0`, `u[0,1] = c`) exactly when the object
conjugate is *infinite*; for a *finite* object the height/slope roles are
swapped and the same values land in the `u` row (with `y[0,0] = 0`,
`y[0,1] = c`). -/
theorem find_rays_rows (m : Mat2) (r c : ℚ) (h : det2 m ≠ 0) :
    find_rays m r c false =
      some ⟨r * (inv2 m).a - r * (inv2 m).b * (inv2 m).c / (inv2 m).d, 0,
            c * (inv2 m).b / (inv2 m).d, c⟩ ∧
    find_rays m r c true =
      some ⟨0, r * (inv2 m).a - r * (inv2 m).b * (inv2 m).c / (inv2 m).d,
            c, c * (inv2 m).b / (inv2 m).d⟩ := by
  unfold find_rays
  simp [h]

/-- C1 witness: the amended statement instantiated at `m = [[2,1],[1,2]]`,
`r = c = 1`. -/
theorem find_rays_rows_witness :
    det2 ⟨2, 1, 1, 2⟩ ≠ 0 ∧
    (find_rays ⟨2, 1, 1, 2⟩ 1 1 false =
      some ⟨1 * (inv2 ⟨2, 1, 1, 2⟩).a -
              1 * (inv2 ⟨2, 1, 1, 2⟩).b * (inv2 ⟨2, 1, 1, 2⟩).c / (inv2 ⟨2, 1, 1, 2⟩).d,
            0, 1 * (inv2 ⟨2, 1, 1, 2⟩).b / (inv2 ⟨2, 1, 1, 2⟩).d, 1⟩ ∧
     find_rays ⟨2, 1, 1, 2⟩ 1 1 true =
      some ⟨0, 1 * (inv2 ⟨2, 1, 1, 2⟩).a -
                 1 * (inv2 ⟨2, 1, 1, 2⟩).b * (inv2 ⟨2, 1, 1, 2⟩).c / (inv2 ⟨2, 1, 1, 2⟩).d,
            1, 1 * (inv2 ⟨2, 1, 1, 2⟩).b / (inv2 ⟨2, 1, 1, 2⟩).d⟩) :=
  ⟨by norm_num [det2], find_rays_rows ⟨2, 1, 1, 2⟩ 1 1 (by norm_num [det2])⟩

/-! ### C3 — no domain error on a zero inverse entry -/

/-- C3 counterexample: `m = [[0,1],[-1,0]]` is invertible (determinant 1)
but its inverse has `mi[1,1] = 0`; `find_rays` nevertheless returns a
result: the only raising operation is `np.linalg.inv`, and the subsequent
float division by the zero entry produces non-finite values without
raising. -/
theorem find_rays_zero_entry_returns_cex :
    (inv2 ⟨0, 1, -1, 0⟩).d = 0 ∧
    (find_rays ⟨0, 1, -1, 0⟩ 1 1 false).isSome = true := by
  constructor
  · norm_num [inv2, det2]
  · norm_num [find_rays, det2]

/-- C3 (amended): `find_rays` fails only when the system matrix `m` itself
is singular (the `LinAlgError` from `np.linalg.inv`); whenever `m` is
invertible it returns a row, even when the inverse entry `mi[1,1]` is zero
(float division by zero yields non-finite values, not an error). -/
theorem find_rays_total_of_invertible (m : Mat2) (r c : ℚ) (finite : Bool)
    (h : det2 m ≠ 0) : (find_rays m r c finite).isSome = true := by
  unfold find_rays
  simp [h]
  cases finite <;> simp

/-- C3 witness: the amended statement instantiated at the degenerate
configuration `m = [[0,1],[-1,0]]` (invertible, `mi[1,1] = 0`). -/
theorem find_rays_total_of_invertible_witness :
    det2 ⟨0, 1, -1, 0⟩ ≠ 0 ∧
    (find_rays ⟨0, 1, -1, 0⟩ 1 1 false).isSome = true :=
  ⟨by norm_num [det2],
   find_rays_total_of_invertible ⟨0, 1, -1, 0⟩ 1 1 false (by norm_num [det2])⟩

/-! ### C2 — conservation of the Lagrange invariant -/

theorem lagrange_propagate_paraxial (s : PSurf) (st : PState)
    (h : s.index ≠ 0) : lagrange (propagate_paraxial s st) = lagrange st := by
  unfold lagrange propagate_paraxial
  field_simp
  ring

/-- C2: for every system of homogeneous refracting surfaces (no
aperture-stop discontinuity) whose media have nonzero refractive index,
every intermediate row recorded by `propagate` has the same Lagrange
invariant `n·(u_m·y_c − u_c·y_m)` as the object-space row reported by the
`lagrange` property. -/
theorem lagrange_invariant_conserved (sys : List PSurf) (st : PState)
    (h : ∀ s ∈ sys, s.index ≠ 0) :
    ∀ st' ∈ paraxStates st sys, lagrange st' = lagrange st := by
  induction sys generalizing st with
  | nil =>
    intro st' hst'
    simp [paraxStates] at hst'
    simp [hst']
  | cons s rest ih =>
    intro st' hst'
    simp only [paraxStates, List.mem_cons] at hst'
    rcases hst' with h1 | h2
    · simp [h1]
    · have hs : s.index ≠ 0 := h s (by simp)
      have hr : ∀ t ∈ rest, t.index ≠ 0 := fun t ht => h t (by simp [ht])
      have := ih (propagate_paraxial s st) hr st' h2
      rw [this, lagrange_propagate_paraxial s st hs]

/-- C2 witness: a concrete two-surface system (a thin glass element) with
unit-index object space; every recorded row has the object-space Lagrange
invariant. -/
theorem lagrange_invariant_conserved_witness :
    (∀ s ∈ [(⟨2, 1/10, 3/2⟩ : PSurf), ⟨1, -1/10, 1⟩], s.index ≠ 0) ∧
    ∀ st' ∈ paraxStates ⟨0, 1/10, 1, 0, 1⟩
        [(⟨2, 1/10, 3/2⟩ : PSurf), ⟨1, -1/10, 1⟩],
      lagrange st' = lagrange ⟨0, 1/10, 1, 0, 1⟩ :=
  ⟨by intro s hs; fin_cases hs <;> norm_num,
   lagrange_invariant_conserved _ _
     (by intro s hs; fin_cases hs <;> norm_num)⟩

/-! ### C9 — `propagate(stop=0)` visits every surface -/

/-- C9: calling `propagate` with `stop=0` behaves exactly like the default
(`stop=None`): the `stop or self.length` falsy test maps `0` to the system
length, so every surface is visited — the visited index list is
`range(length)`, not the empty half-open range `[start, 0)`. -/
theorem propagate_stop_zero_full (sys : List PSurf) (st : PState) :
    propagateSlice sys st 0 (some 0) = propagateSlice sys st 0 none ∧
    visitedIndices sys.length 0 (some 0) = List.range sys.length := by
  constructor
  · rfl
  · simp [visitedIndices, pyOrStop, List.range_eq_range']

/-! ### C8 — `z` arrays of the two engines -/

theorem paraxZAux_false_eq_fullZAux (z : ℚ) (ts : List ℚ) :
    paraxZAux z false ts = fullZAux z ts := by
  induction ts generalizing z with
  | nil => rfl
  | cons t r ih => simp [paraxZAux, fullZAux, ih]

theorem fullZAux_shift (z c : ℚ) (ts : List ℚ) :
    fullZAux (z + c) ts = (fullZAux z ts).map (· + c) := by
  induction ts generalizing z with
  | nil => rfl
  | cons t r ih =>
    simp only [fullZAux, List.map_cons]
    have h1 : z + c + t = z + t + c := by ring
    rw [h1, ih]

theorem fullZAux_getD (z : ℚ) (ts : List ℚ) (i : ℕ) (hi : i < ts.length) :
    (fullZAux z ts).getD i 0 = z + ∑ k ∈ Finset.range (i + 1), ts.getD k 0 := by
  induction ts generalizing z i with
  | nil => simp at hi
  | cons t r ih =>
    cases i with
    | zero => simp [fullZAux]
    | succ j =>
      simp only [fullZAux, List.getD_cons_succ]
      rw [ih (z + t) j (by simpa using hi)]
      have hs : ∑ k ∈ Finset.range (j + 1 + 1), (t :: r).getD k 0
          = (∑ k ∈ Finset.range (j + 1), (t :: r).getD (k + 1) 0)
            + (t :: r).getD 0 0 := Finset.sum_range_succ' _ _
      rw [hs]
      simp only [List.getD_cons_succ, List.getD_cons_zero]
      ring

theorem fullZAux_length (z : ℚ) (ts : List ℚ) :
    (fullZAux z ts).length = ts.length := by
  induction ts generalizing z with
  | nil => rfl
  | cons t r ih => simp [fullZAux, ih]

/-- C8: for every nonempty thickness list `t0 :: ts` and every valid index
`i`, the full tracer records `z[i] = Σ_{k≤i} thickness[k]` (the first
surface's thickness included), the paraxial tracer records `z[0] = 0`
(accumulating only from surface 1), and the two arrays differ by the first
surface's thickness `t0` at every index. -/
theorem fullz_paraxz_offset (t0 : ℚ) (ts : List ℚ) (i : ℕ)
    (hi : i < (t0 :: ts).length) :
    (fullZ (t0 :: ts)).getD i 0 =
      ∑ k ∈ Finset.range (i + 1), (t0 :: ts).getD k 0 ∧
    (paraxZ (t0 :: ts)).getD 0 0 = 0 ∧
    (fullZ (t0 :: ts)).getD i 0 = (paraxZ (t0 :: ts)).getD i 0 + t0 := by
  refine ⟨by simpa using fullZAux_getD 0 (t0 :: ts) i hi, by simp [paraxZ, paraxZAux], ?_⟩
  have hpar : paraxZ (t0 :: ts) = 0 :: fullZAux 0 ts := by
    simp [paraxZ, paraxZAux, paraxZAux_false_eq_fullZAux]
  have hful : fullZ (t0 :: ts) = (0 + t0) :: fullZAux (0 + t0) ts := by
    simp [fullZ, fullZAux]
  cases i with
  | zero => simp [hpar, hful]
  | succ j =>
    have hj : j < ts.length := by simpa using hi
    rw [hpar, hful]
    simp only [List.getD_cons_succ]
    have : (0 : ℚ) + t0 = 0 + t0 := rfl
    rw [show (0 : ℚ) + t0 = 0 + t0 from rfl, fullZAux_shift 0 t0 ts]
    have hlen : j < (fullZAux 0 ts).length := by rw [fullZAux_length]; exact hj
    rw [List.getD_eq_getElem _ _ (by simpa [fullZAux_length] using hj),
        List.getD_eq_getElem _ _ hlen]
    simp

/-- C8 witness: the thickness list `[5, 2, 3]` at index 2. -/
theorem fullz_paraxz_offset_witness :
    2 < ([(5 : ℚ), 2, 3]).length ∧
    ((fullZ [(5 : ℚ), 2, 3]).getD 2 0 =
        ∑ k ∈ Finset.range 3, ([(5 : ℚ), 2, 3]).getD k 0 ∧
      (paraxZ [(5 : ℚ), 2, 3]).getD 0 0 = 0 ∧
      (fullZ [(5 : ℚ), 2, 3]).getD 2 0 = (paraxZ [(5 : ℚ), 2, 3]).getD 2 0 + 5) :=
  ⟨by norm_num, fullz_paraxz_offset 5 [2, 3] 2 (by norm_num)⟩

/-! ### C10 — the `magnification` property -/

/-- C10: for state arrays of equal length covering at least two surfaces,
`magnification` returns the pair (transverse, angular) with transverse
`= n[0]·u_m[0] / (n[L]·u_m[L])` and angular `= n[L]·u_c[L] / (n[1]·u_c[0])`
where `L = length − 2` is the last optical surface: the angular ratio's
denominator reads the index `n[1]` recorded after the first surface, not
the object-space `n[0]` used by the transverse ratio. -/
theorem magnification_formula (nl : List ℚ) (u : List (ℚ × ℚ))
    (h2 : 2 ≤ nl.length) (hu : u.length = nl.length) :
    magnification nl u =
      ((nl.getD 0 0 * (u.getD 0 (0, 0)).1) /
         (nl.getD (nl.length - 2) 0 * (u.getD (u.length - 2) (0, 0)).1),
       (nl.getD (nl.length - 2) 0 * (u.getD (u.length - 2) (0, 0)).2) /
         (nl.getD 1 0 * (u.getD 0 (0, 0)).2)) := by
  unfold magnification pyGetD
  norm_num [hu]
  exact ⟨rfl, rfl⟩

/-- C10 witness: a three-surface system with `n = [1, 3/2, 1]` (so
`n[0] ≠ n[1]`) and concrete slope pairs. -/
theorem magnification_formula_witness :
    2 ≤ ([(1 : ℚ), 3/2, 1]).length ∧
    ([((1 : ℚ), 2), (3, 4), (5, 6)] : List (ℚ × ℚ)).length =
      ([(1 : ℚ), 3/2, 1]).length ∧
    magnification [(1 : ℚ), 3/2, 1] [(1, 2), (3, 4), (5, 6)] =
      ((([(1 : ℚ), 3/2, 1]).getD 0 0 *
          (([((1 : ℚ), 2), (3, 4), (5, 6)] : List (ℚ × ℚ)).getD 0 (0, 0)).1) /
         (([(1 : ℚ), 3/2, 1]).getD (([(1 : ℚ), 3/2, 1]).length - 2) 0 *
          (([((1 : ℚ), 2), (3, 4), (5, 6)] : List (ℚ × ℚ)).getD
            (([((1 : ℚ), 2), (3, 4), (5, 6)] : List (ℚ × ℚ)).length - 2) (0, 0)).1),
       (([(1 : ℚ), 3/2, 1]).getD (([(1 : ℚ), 3/2, 1]).length - 2) 0 *
          (([((1 : ℚ), 2), (3, 4), (5, 6)] : List (ℚ × ℚ)).getD
            (([((1 : ℚ), 2), (3, 4), (5, 6)] : List (ℚ × ℚ)).length - 2) (0, 0)).2) /
         (([(1 : ℚ), 3/2, 1]).getD 1 0 *
          (([((1 : ℚ), 2), (3, 4), (5, 6)] : List (ℚ × ℚ)).getD 0 (0, 0)).2)) :=
  ⟨by norm_num, by norm_num,
   magnification_formula [(1 : ℚ), 3/2, 1] [(1, 2), (3, 4), (5, 6)]
     (by norm_num) (by norm_num)⟩

/-! ### C4 — unknown distribution names -/

/-- C4 counterexample: at the unknown distribution name `"gaussian"` the
sampler returns normally with Python's `None` — no `ConfigurationError`
(or any other exception) is raised; no such error class even appears in
the module. -/
theorem get_rays_unknown_cex :
    get_rays "gaussian" 10 [] = GetRaysOut.pyNone := by
  rfl

/-- C4 (amended): for every point count and candidate list, a distribution
name that is not one of the eight named distributions makes `get_rays`
fall through the `if/elif` chain and return `None`; it raises nothing. -/
theorem get_rays_unknown_returns_none (d : String) (n : ℕ) (rand : List Pt)
    (h : d ∉ ["random", "meridional", "sagittal", "square", "triangular",
              "hexapolar", "cross", "tee"]) :
    get_rays d n rand = GetRaysOut.pyNone := by
  simp only [List.mem_cons, List.mem_singleton, not_or] at h
  obtain ⟨h1, h2, h3, h4, h5, h6, h7, h8, -⟩ := h
  unfold get_rays
  simp [h1, h2, h3, h4, h5, h6, h7, h8]

/-- C4 witness: the amended statement instantiated at the name
`"gaussian"`. -/
theorem get_rays_unknown_returns_none_witness :
    ("gaussian" ∉ ["random", "meridional", "sagittal", "square",
        "triangular", "hexapolar", "cross", "tee"]) ∧
    get_rays "gaussian" 7 [] = GetRaysOut.pyNone :=
  ⟨by decide, get_rays_unknown_returns_none "gaussian" 7 [] (by decide)⟩

/-! ### C6 — `square` and `triangular` coincide -/

/-- C6: for every point count (and any random candidates), the `square`
and `triangular` branches of `get_rays` produce identical outputs — the
same `round(√(4n/π))`-sided grid over `[-1,1]²` clipped to the unit disk,
point for point. -/
theorem square_eq_triangular (n : ℕ) (rand : List Pt) :
    get_rays "square" n rand = get_rays "triangular" n rand ∧
    squareDist n = triangularDist n := by
  constructor
  · rfl
  · rfl

/-! ### C5 — the `hexapolar` distribution -/

theorem hexRing_length (r i : ℕ) : (hexRing r i).length = 6 * i := by
  unfold hexRing
  rw [List.length_map, List.length_range]

theorem sum_six (r : ℕ) :
    ((List.range r).map (fun j => 6 * (j + 1))).sum = 3 * r * (r + 1) := by
  induction r with
  | zero => rfl
  | succ k ih =>
    rw [List.range_succ, List.map_append, List.sum_append]
    simp [ih]
    ring

theorem hexRing_mem_disk (r i : ℕ) (hi1 : 1 ≤ i) (hir : i ≤ r) :
    ∀ p ∈ hexRing r i, p.1 ^ 2 + p.2 ^ 2 ≤ 1 := by
  intro p hp
  simp only [hexRing, List.mem_map, List.mem_range] at hp
  obtain ⟨k, hk, rfl⟩ := hp
  have hrn : 0 < r := lt_of_lt_of_le hi1 hir
  have hr : (0 : ℝ) < r := by exact_mod_cast hrn
  simp only
  set a := (k : ℝ) * (2 * Real.pi / (6 * i)) with ha
  have key : ((i : ℝ) * Real.sin a / r) ^ 2 + ((i : ℝ) * Real.cos a / r) ^ 2
      = ((i : ℝ) / r) ^ 2 * (Real.sin a ^ 2 + Real.cos a ^ 2) := by ring
  rw [key, Real.sin_sq_add_cos_sq, mul_one]
  have h1 : (i : ℝ) / r ≤ 1 := by
    rw [div_le_one hr]; exact_mod_cast hir
  have h2 : (0 : ℝ) ≤ (i : ℝ) / r := by positivity
  exact pow_le_one₀ h2 h1

/-- C5: for every `n ≥ 1` the `hexapolar` sampler returns exactly
`1 + 6·(1 + 2 + … + r)` points, where `r = round(√(n/3 − 1/12) − 1/2)` is
the ring count — one centre point plus `6i` points on each ring
`i = 1..r` — and every returned point lies in the closed unit disk. -/
theorem hexapolar_count_and_disk (n : ℕ) (rand : List Pt) (h : 1 ≤ n) :
    get_rays "hexapolar" n rand = GetRaysOut.pts (hexapolarDist n) ∧
    (hexapolarDist n).length =
      1 + 6 * ∑ i ∈ Finset.range (ringCount n + 1), i ∧
    ∀ p ∈ hexapolarDist n, p.1 ^ 2 + p.2 ^ 2 ≤ 1 := by
  refine ⟨rfl, ?_, ?_⟩
  · have hlen : (hexapolarDist n).length
        = 1 + 3 * ringCount n * (ringCount n + 1) := by
      simp only [hexapolarDist, List.length_cons, List.length_flatten,
        List.map_map]
      have hmap : (List.map (List.length ∘ fun j => hexRing (ringCount n) (j + 1))
          (List.range (ringCount n))).sum
          = ((List.range (ringCount n)).map (fun j => 6 * (j + 1))).sum := by
        congr 1
        apply List.map_congr_left
        intro j _
        simp [hexRing_length]
      rw [hmap, sum_six]
      omega
    rw [hlen]
    have hsum : (∑ i ∈ Finset.range (ringCount n + 1), i) * 2
        = (ringCount n + 1) * ringCount n := by
      rw [Finset.sum_range_id_mul_two]
      simp
    have : 6 * ∑ i ∈ Finset.range (ringCount n + 1), i
        = 3 * ((∑ i ∈ Finset.range (ringCount n + 1), i) * 2) := by ring
    rw [this, hsum]
    ring
  · intro p hp
    simp only [hexapolarDist, List.mem_cons] at hp
    rcases hp with h0 | hmem
    · rw [h0]; norm_num
    · rw [List.mem_flatten] at hmem
      obtain ⟨ringl, hringl, hpring⟩ := hmem
      simp only [List.mem_map, List.mem_range] at hringl
      obtain ⟨j, hj, rfl⟩ := hringl
      exact hexRing_mem_disk (ringCount n) (j + 1) (by omega) (by omega) p hpring

/-- C5 witness: the statement instantiated at `n = 7`. -/
theorem hexapolar_count_and_disk_witness :
    1 ≤ 7 ∧
    (get_rays "hexapolar" 7 [] = GetRaysOut.pts (hexapolarDist 7) ∧
     (hexapolarDist 7).length =
       1 + 6 * ∑ i ∈ Finset.range (ringCount 7 + 1), i ∧
     ∀ p ∈ hexapolarDist 7, p.1 ^ 2 + p.2 ^ 2 ≤ 1) :=
  ⟨by decide, hexapolar_count_and_disk 7 [] (by decide)⟩

/-! ### C7 — `print_coeffs` output shape -/

theorem dataRows_length (typs : List String) (i : ℕ)
    (coeff : List (List ℚ)) : (dataRows typs i coeff).length = coeff.length := by
  induction coeff generalizing i with
  | nil => rfl
  | cons a rest ih => simp [dataRows, ih]

theorem dataRows_getD (typs : List String) (i j : ℕ)
    (coeff : List (List ℚ)) (hj : j < coeff.length) :
    (dataRows typs i coeff).getD j "" =
      dataRow (i + j) (typs.getD (i + j) "") (coeff.getD j []) := by
  induction coeff generalizing i j with
  | nil => simp at hj
  | cons a rest ih =>
    cases j with
    | zero => simp [dataRows]
    | succ k =>
      simp only [dataRows, List.getD_cons_succ]
      rw [ih (i + 1) k (by simpa using hj)]
      have hik : i + 1 + k = i + (k + 1) := by omega
      rw [hik]

/-- C7: for every surface-type list, every 5-row coefficient array of
3-entry rows and every 3-label list, `print_coeffs` yields exactly 7 lines
with `sum=True` (header, 5 data rows, column-sum row) and 6 lines with
`sum=False`; each data line is the width-2 surface index, a space, the
surface type, and the row's values each rendered by the `% 10.4g`
conversion (4 significant digits, width 10). -/
theorem print_coeffs_lines (typs : List String) (coeff : List (List ℚ))
    (labels : List String) (h5 : coeff.length = 5) (h3 : labels.length = 3)
    (hrow : ∀ a ∈ coeff, a.length = 3) :
    (print_coeffs typs coeff labels true).length = 7 ∧
    (print_coeffs typs coeff labels false).length = 6 ∧
    ∀ i < 5, (print_coeffs typs coeff labels true).getD (i + 1) "" =
      rightJust 2 (toString i) ++ " " ++ rightJust 1 (typs.getD i "") ++
        String.join ((coeff.getD i []).map pyFmt10g) := by
  refine ⟨?_, ?_, ?_⟩
  · simp [print_coeffs, dataRows_length, h5]
  · simp [print_coeffs, dataRows_length, h5]
  · intro i hi
    have hlen : i + 1 < ((rightJust 2 "#" ++ " " ++ rightJust 1 "T" ++
        String.join (labels.map (rightJust 10))) ::
          dataRows typs 0 coeff).length := by
      simp [dataRows_length, h5]; omega
    simp only [print_coeffs]
    rw [List.getD_append _ _ _ _ hlen, List.getD_cons_succ,
      dataRows_getD typs 0 i coeff (by omega)]
    simp [dataRow]

/-- C7 witness: a concrete `(5,3)` coefficient array. -/
theorem print_coeffs_lines_witness :
    ([[(1 : ℚ), 2, 3], [4, 5, 6], [7, 8, 9], [10, 11, 12],
        [13, 14, 15]]).length = 5 ∧
    (["SA", "CMA", "AST"]).length = 3 ∧
    (∀ a ∈ [[(1 : ℚ), 2, 3], [4, 5, 6], [7, 8, 9], [10, 11, 12],
        [13, 14, 15]], a.length = 3) ∧
    (print_coeffs ["O", "S", "S", "S", "I"]
        [[(1 : ℚ), 2, 3], [4, 5, 6], [7, 8, 9], [10, 11, 12], [13, 14, 15]]
        ["SA", "CMA", "AST"] true).length = 7 ∧
    (print_coeffs ["O", "S", "S", "S", "I"]
        [[(1 : ℚ), 2, 3], [4, 5, 6], [7, 8, 9], [10, 11, 12], [13, 14, 15]]
        ["SA", "CMA", "AST"] false).length = 6 :=
  have key := print_coeffs_lines ["O", "S", "S", "S", "I"]
    [[(1 : ℚ), 2, 3], [4, 5, 6], [7, 8, 9], [10, 11, 12], [13, 14, 15]]
    ["SA", "CMA", "AST"] (by norm_num) (by norm_num)
    (by intro a ha; fin_cases ha <;> norm_num)
  ⟨by norm_num, by norm_num, by intro a ha; fin_cases ha <;> norm_num,
   key.1, key.2.1⟩

end Rayopt
